import Mathlib

/-!
Verification development for the CUDA embedding backward / renorm core
(aten/src/ATen/native/cuda/Embedding.cu).

The kernels are modelled over exact arithmetic: gradient accumulation over
the rationals, row renormalization over the reals.  Tables are modelled as
total functions from a row id (an integer, matching the int64 index type)
and a feature column (a natural number) to the scalar value.  The
sequential denotation of each kernel is taken: the source design
guarantees a single writer per (row, feature) pair, so the concurrent
execution is a permutation of the sequential one under exact arithmetic.
-/

namespace EmbCuda

/-! ## Tensor metadata and the boundary checks of the two entry points -/

/-- Element types relevant to the argument checks (`ScalarType` in ATen). -/
inductive ScalarType where
  | Byte | Char | Short | Int | Long | Half | Float | Double
deriving DecidableEq

/-- The metadata of a tensor argument that the boundary checks inspect:
element type, contiguity, device ordinal and number of dimensions. -/
structure TensorMeta where
  dtype : ScalarType
  contiguous : Bool
  device : Nat
  dim : Nat
deriving DecidableEq

/-- The argument checks performed by `embedding_backward_cuda` before any
launch: `checkScalarType(indices, kLong)`, `checkContiguous(indices)`,
`checkSameGPU(grad, indices)`.  (There is no rank check here.) -/
def embedding_backward_checks (grad indices : TensorMeta) : Bool :=
  (indices.dtype = ScalarType.Long) && indices.contiguous
    && (grad.device = indices.device)

/-- The argument checks performed by `embedding_renorm_cuda_` before any
launch: `checkContiguous(self)`, `checkContiguous(indices)`,
`checkDim(self, 2)`, `checkSameGPU(self, indices)`.  (There is no scalar
type check on `indices` here.) -/
def embedding_renorm_checks (self indices : TensorMeta) : Bool :=
  self.contiguous && indices.contiguous && (self.dim = 2)
    && (self.device = indices.device)

/-! ## Dispatch condition of the backward entry point -/

/-- The dispatch test `num_indices <= 768 && !scale_grad_by_freq` that
selects the direct (feature) kernel over the sort-grouped kernel. -/
def usesDirectPath (numIndices : Nat) (scaleGradByFreq : Bool) : Bool :=
  decide (numIndices ≤ 768) && !scaleGradByFreq

/-! ## The direct lane-reduction kernel (`embedding_backward_feature_kernel`)

The kernel runs with `blockDim = (32, 32)`; the shared buffer
`indices_batch` has `32 * 32 = 1024` int slots.  The outer loop loads a
window of up to 1024 indices starting at `batch_start`; the inner loop
walks chunks of 32 indices.  A slot of the window that was not loaded in
the current outer iteration (or lies outside the 1024-slot buffer) holds
an unspecified value, modelled by the parameter `junkf`. -/

/-- Reading slot `t` of the shared `indices_batch` window for the outer
iteration starting at `b`.  Loaded slots (`t < 1024` and `b + t < n`) hold
the real index; any other access yields the unspecified `junkf t`. -/
def windowRead (idxf junkf : Nat → Int) (n b t : Nat) : Int :=
  if t < 1024 ∧ b + t < n then idxf (b + t) else junkf t

/-- The destination row `dst_row = indices_batch[src_row - batch_start]`
read by warp `ty` of the chunk starting at `c` (so `src_row = c + ty`). -/
def dstAt (idxf junkf : Nat → Int) (n b c t : Nat) : Int :=
  windowRead idxf junkf n b (c - b + t)

/-- Offsets into the 1024-slot shared index buffer that the inner chunk
loop can touch: both `indices_batch[src_row - batch_start]` and
`indices_batch[chunk_start - batch_start + threadIdx.x]` have the shape
`(chunk_start - batch_start) + t` with `t < 32`, where `batch_start` is a
multiple of 1024 below `n` and `chunk_start = batch_start + 32 * j < n`. -/
def reachableFeatureAccess (n off : Nat) : Prop :=
  ∃ b j t, b % 1024 = 0 ∧ b < n ∧ b + 32 * j < n ∧ t < 32 ∧
    off = (b + 32 * j) + t - b

/-- Warp `ty` of the chunk at `c` is the elected leader for its
destination row: it is active (`src_row < n`, i.e. `ty < m` where
`m = n_this_chunk`, and its row is not `padding_idx`) and no lower-indexed
active warp targets the same row (`__ffs(matchmask) - 1 == threadIdx.y`). -/
def isLeader (idxf junkf : Nat → Int) (n b c m : Nat) (pad : Int)
    (ty : Nat) : Prop :=
  ty < m ∧ dstAt idxf junkf n b c ty ≠ pad ∧
    ∀ tx, tx < ty → ¬(tx < m ∧ dstAt idxf junkf n b c tx = dstAt idxf junkf n b c ty)

instance (idxf junkf : Nat → Int) (n b c m : Nat) (pad : Int) (ty : Nat) :
    Decidable (isLeader idxf junkf n b c m pad ty) := by
  unfold isLeader; infer_instance

/-- Effect of one chunk (`chunk_start = c`) of the feature kernel on the
gradient-weight table at feature column `f < s`: each leader warp `ty`
folds the staged gradients of all chunk members targeting its row
(`matchmask`) and performs one additive write to that row. -/
def chunkStep (idxf junkf : Nat → Int) (grad : Nat → Nat → ℚ) (n s : Nat)
    (pad : Int) (b c : Nat) (gw : Int → Nat → ℚ) : Int → Nat → ℚ :=
  let m := min (n - c) 32
  fun r f =>
    gw r f +
      if f < s then
        ∑ ty ∈ Finset.range 32,
          (if isLeader idxf junkf n b c m pad ty ∧ dstAt idxf junkf n b c ty = r then
            ∑ tx ∈ Finset.range 32,
              (if tx < m ∧ dstAt idxf junkf n b c tx = dstAt idxf junkf n b c ty then
                grad (c + tx) f
              else 0)
          else 0)
      else 0

/-- The chunk starts visited by `for(chunk_start = b; chunk_start < n;
chunk_start += 32)`. -/
def chunkList (n b : Nat) : List Nat :=
  (List.range ((n - b + 31) / 32)).map (fun t => b + 32 * t)

/-- The batch starts visited by `for(batch_start = 0; batch_start < n;
batch_start += 1024)` (1024 = blockDim.x * blockDim.y). -/
def batchList (n : Nat) : List Nat :=
  (List.range ((n + 1023) / 1024)).map (fun t => 1024 * t)

/-- Sequential denotation of `embedding_backward_feature_kernel` at a
fixed feature column set: the zero-initialized gradient-weight table after
all batches and chunks have been processed. -/
def featureKernel (idxf junkf : Nat → Int) (grad : Nat → Nat → ℚ)
    (n s : Nat) (pad : Int) : Int → Nat → ℚ :=
  (batchList n).foldl
    (fun gw b =>
      (chunkList n b).foldl
        (fun gw c => chunkStep idxf junkf grad n s pad b c gw) gw)
    (fun _ _ => 0)

/-! ## Sorting and frequency counts for the sort-grouped path

The dispatcher pairs each index with its original position, sorts the
pairs by index value (the external `thrust::sort_by_key`; any
value-ascending sort satisfies the contract, a stable one is used in the
model), and, when frequency scaling is requested, computes per-position
occurrence counts with a forward inclusive `+1` scan-by-key followed by a
reverse inclusive `max` scan-by-key. -/

/-- Ordering of (index value, original position) pairs by value, as used
by the sort-by-key preprocessing step. -/
def pairLe (a b : Int × Nat) : Prop := a.1 ≤ b.1

instance : DecidableRel pairLe := fun a b => inferInstanceAs (Decidable (a.1 ≤ b.1))

instance : IsTotal (Int × Nat) pairLe := ⟨fun a b => Int.le_total a.1 b.1⟩

instance : IsTrans (Int × Nat) pairLe := ⟨fun _ _ _ h h2 => le_trans h h2⟩

/-- The sorted list of (index value, original position) pairs produced by
the sort-by-key step on the index list. -/
def sortedWithPos (l : List Int) : List (Int × Nat) :=
  List.insertionSort pairLe (l.zip (List.range l.length))

/-- The value component of the sorted pairs (`sorted_indices`). -/
def sortedKeys (l : List Int) : List Int :=
  (sortedWithPos l).map Prod.fst

/-- The original-position component of the sorted pairs (`orig_indices`). -/
def origPos (l : List Int) : List Nat :=
  (sortedWithPos l).map Prod.snd

/-- Forward inclusive scan-by-key with combine `+1` (tail part): given the
previous key `pk` and the previous running value `pv`, a key equal to `pk`
continues the run with `pv + 1`, a different key restarts at 1. -/
def fwdGo (pk : Int) (pv : Nat) : List Int → List Nat
  | [] => []
  | k :: ks => (if k = pk then pv + 1 else 1) :: fwdGo k (if k = pk then pv + 1 else 1) ks

/-- Forward inclusive scan-by-key of constant 1 with `+`: position `i`
receives its 1-based occurrence number within its run of equal keys. -/
def fwdScan : List Int → List Nat
  | [] => []
  | k :: ks => 1 :: fwdGo k 1 ks

/-- Reverse inclusive scan-by-key with combine `max`: position `i`
receives `max` of its value and the result at `i + 1` when the keys at
`i` and `i + 1` are equal, otherwise its own value (the last position of
each run keeps its value). -/
def revScan : List Int → List Nat → List Nat
  | k :: k2 :: ks, v :: vs =>
    (if k = k2 then max v ((revScan (k2 :: ks) vs).headD 0) else v) :: revScan (k2 :: ks) vs
  | _, vs => vs

/-- The per-position frequency counts `count` computed by the two
scan-by-key passes over the sorted index list. -/
def countsList (l : List Int) : List Nat :=
  revScan (sortedKeys l) (fwdScan (sortedKeys l))

/-! ## The sort-grouped kernel (`embedding_backward_kernel`)

One execution group per sorted position.  A group owns its position when
the position is the first of a run of equal values (`idx == 0 ||
input[idx] != input[idx - 1]`); a non-owner exits immediately.  The owner
processes each member of its run in turn: it reads the gradient row named
by the member's original position, scales it, adds it to the destination
row of the gradient-weight table and stores the row back — one global
read-modify-write per run member.  The state carries the gradient-weight
table together with, per destination row, the number of global stores
performed to that row at a fixed in-range feature column. -/

/-- An entry of the sorted work list: destination row value, original
position, and the scale factor `count ? 1.0/count[idx] : 1.0`. -/
def buildEntries (input : List Int) (indices : List Nat) :
    Option (List Nat) → List (Int × Nat × ℚ)
  | none => (input.zip indices).map (fun p => (p.1, p.2, 1))
  | some cl => List.zipWith (fun (p : Int × Nat) (c : Nat) => (p.1, p.2, ((c : ℚ))⁻¹))
      (input.zip indices) cl

/-- One iteration of the owner's run walk: add `gradient * scale` to the
destination row at every in-range feature column and store the row back
(counted as one global write to that row). -/
def onePos (grad : Nat → Nat → ℚ) (stride : Nat) (e : Int × Nat × ℚ)
    (st : (Int → Nat → ℚ) × (Int → Nat)) : (Int → Nat → ℚ) × (Int → Nat) :=
  (fun r f => if r = e.1 ∧ f < stride then st.1 r f + e.2.2 * grad e.2.1 f else st.1 r f,
   fun r => if r = e.1 ∧ 0 < stride then st.2 r + 1 else st.2 r)

/-- The owner's do-while walk over its run: process entries while their
value equals the owner's value. -/
def walkRun (grad : Nat → Nat → ℚ) (stride : Nat) (v : Int) :
    List (Int × Nat × ℚ) → (Int → Nat → ℚ) × (Int → Nat) → (Int → Nat → ℚ) × (Int → Nat)
  | [], st => st
  | e :: rest, st =>
    if e.1 = v then walkRun grad stride v rest (onePos grad stride e st) else st

/-- Sequential denotation of the per-position groups: `prev` is the value
at the preceding sorted position (`none` at position 0).  A group whose
value differs from `prev` and is not `padding_idx` owns its run and walks
it; every other group exits immediately. -/
def goS (grad : Nat → Nat → ℚ) (stride : Nat) (pad : Int) :
    Option Int → List (Int × Nat × ℚ) → (Int → Nat → ℚ) × (Int → Nat) →
      (Int → Nat → ℚ) × (Int → Nat)
  | _, [], st => st
  | prev, e :: rest, st =>
    goS grad stride pad (some e.1) rest
      (if prev ≠ some e.1 ∧ e.1 ≠ pad then walkRun grad stride e.1 (e :: rest) st else st)

/-- Sequential denotation of `embedding_backward_kernel`: the
zero-initialized gradient-weight table and per-row global-store counters
after all groups have run. -/
def sortedKernel (input : List Int) (indices : List Nat) (grad : Nat → Nat → ℚ)
    (count : Option (List Nat)) (stride : Nat) (pad : Int) :
    (Int → Nat → ℚ) × (Int → Nat) :=
  goS grad stride pad none (buildEntries input indices count) (fun _ _ => 0, fun _ => 0)

/-- The work-list entries still to be accounted for when the scan of the
groups has reached state `prev`: all of them when `prev = none`, and all
but the leading run of `prev`-valued entries otherwise (those were
already folded by the run owner that set `prev`). -/
def effList (prev : Option Int) (L : List (Int × Nat × ℚ)) :
    List (Int × Nat × ℚ) :=
  match prev with
  | none => L
  | some p => L.dropWhile (fun e => decide (e.1 = p))

/-! ## The backward entry point (`embedding_backward_cuda`) -/

/-- The gradient accumulation computation of `embedding_backward_cuda`
after its argument checks: dispatch on `num_indices <= 768 &&
!scale_grad_by_freq` between the direct lane-reduction kernel and the
sort-grouped kernel (the latter preceded by sort-by-key and, when
scaling, by the two count scans).  `junkf` models the unspecified
contents of unloaded shared-buffer slots of the direct kernel. -/
def accumulate_gradient (l : List Int) (grad : Nat → Nat → ℚ) (stride : Nat)
    (pad : Int) (scaleByFreq : Bool) (junkf : Nat → Int) : Int → Nat → ℚ :=
  if usesDirectPath l.length scaleByFreq then
    featureKernel (fun i => l.getD i 0) junkf grad l.length stride pad
  else
    (sortedKernel (sortedKeys l) (origPos l) grad
      (if scaleByFreq then some (countsList l) else none) stride pad).1

/-- The public entry point `embedding_backward_cuda`: run the boundary
checks; on failure abort with an error and no table is produced, on
success return the accumulated gradient-weight table. -/
def embedding_backward_cuda (gradMeta idxMeta : TensorMeta) (l : List Int)
    (grad : Nat → Nat → ℚ) (stride : Nat) (pad : Int) (scaleByFreq : Bool)
    (junkf : Nat → Int) : Except String (Int → Nat → ℚ) :=
  if embedding_backward_checks gradMeta idxMeta then
    Except.ok (accumulate_gradient l grad stride pad scaleByFreq junkf)
  else
    Except.error "embedding_backward: argument check failed"

/-! ## The renormalization kernel (`renorm_kernel`)

Modelled over the reals with a natural-number norm order `p` (the kernel
takes the order as a floating value; the model covers the integral
orders, which is where the C++ `std::pow` of a possibly negative base is
defined).  The per-element norm contribution follows the source exactly:
`|x|` for `p = 1`, `x * x` for `p = 2`, and `std::pow(x, p)` — with no
absolute value — otherwise.  The `p`-th root `std::pow(v, 1/p)` of the
reduced sum is `v` itself for `p = 1` (exponent 1.0); for `p ≥ 2` the
exponent `1/p` is non-integral, so a negative `v` yields NaN, modelled as
`none`; the kernel's comparison `NaN > max_norm` is false, so a `none`
norm performs no rescale. -/

/-- The epsilon `1e-7` guarding the divide in the rescale factor. -/
noncomputable def epsR : ℝ := 1 / 10000000

/-- Per-element contribution to the accumulated row statistic `v`:
`std::abs(x)` for `norm_type = 1`, `x * x` for `norm_type = 2`, and
`std::pow(x, norm_type)` (no absolute value) otherwise. -/
noncomputable def contrib (p : Nat) (x : ℝ) : ℝ :=
  if p = 1 then |x| else if p = 2 then x * x else x ^ p

/-- The block-reduced sum `v` over the `dim` feature columns of a row. -/
noncomputable def rowSumV (p dim : Nat) (w : Nat → ℝ) : ℝ :=
  ∑ i ∈ Finset.range dim, contrib p (w i)

/-- `std::pow(v, 1/p)`: for `p = 1` the exponent is 1 and the result is
`v`; otherwise the exponent `1/p` is non-integral, so the result is
`v ^ (1/p)` when `v ≥ 0` and NaN (`none`) when `v < 0`. -/
noncomputable def rootOpt (p : Nat) (v : ℝ) : Option ℝ :=
  if p = 1 then some v else if 0 ≤ v then some (v ^ ((p : ℝ))⁻¹) else none

/-- Effect of `renorm_kernel` on one row: compute the root of the reduced
sum; if it exceeds `max_norm`, rescale the `dim` in-range columns by
`max_norm / (norm + 1e-7)`; otherwise (including the NaN case) leave the
row untouched. -/
noncomputable def renormRow (p : Nat) (maxNorm : ℝ) (dim : Nat) (w : Nat → ℝ) :
    Nat → ℝ :=
  (rootOpt p (rowSumV p dim w)).elim w (fun nrm =>
    if maxNorm < nrm then
      fun i => if i < dim then w i * (maxNorm / (nrm + epsR)) else w i
    else w)

/-- Tail of adjacent-duplicate removal (`thrust::unique_copy`): drop
elements equal to the most recently kept element `prev`. -/
def uaGo (prev : Int) : List Int → List Int
  | [] => []
  | a :: rest => if a = prev then uaGo prev rest else a :: uaGo a rest

/-- Adjacent-duplicate removal over the index list, keeping the first
element of every maximal run of equal adjacent values. -/
def uniqueAdj : List Int → List Int
  | [] => []
  | a :: rest => a :: uaGo a rest

/-- The renormalization computation of `embedding_renorm_cuda_` after its
argument checks: deduplicate the index list (adjacent duplicates only)
and launch one group per remaining index, each applying `renormRow` to
its row of the weight table.  The sequential denotation folds the groups
in order. -/
noncomputable def renormalize_rows (w : Int → Nat → ℝ) (idxs : List Int)
    (maxNorm : ℝ) (p dim : Nat) : Int → Nat → ℝ :=
  (uniqueAdj idxs).foldl
    (fun acc r => fun r2 => if r2 = r then renormRow p maxNorm dim (acc r) else acc r2)
    w

/-- The mathematical p-norm of a row over its `dim` in-range columns,
`(Σ |x_i|^p)^(1/p)`, as the specification defines it. -/
noncomputable def specPnorm (p dim : Nat) (w : Nat → ℝ) : ℝ :=
  (∑ i ∈ Finset.range dim, |w i| ^ p) ^ ((p : ℝ))⁻¹

/-- The public entry point `embedding_renorm_cuda_`: run the boundary
checks; on failure abort with an error and the weight table is not
mutated, on success return the renormalized weight table. -/
noncomputable def embedding_renorm_cuda_ (selfMeta idxMeta : TensorMeta)
    (w : Int → Nat → ℝ) (idxs : List Int) (maxNorm : ℝ) (p dim : Nat) :
    Except String (Int → Nat → ℝ) :=
  if embedding_renorm_checks selfMeta idxMeta then
    Except.ok (renormalize_rows w idxs maxNorm p dim)
  else
    Except.error "embedding_renorm: argument check failed"

/-! ## C9: dispatch between the two accumulator paths -/

/-- C9 (counterexample): the claim says the direct lane-reduction path is
selected exactly when `num_indices` is below 768; at `num_indices = 768`
with scaling disabled the dispatcher selects the direct path even though
768 is not below 768, so the claim as stated is false. -/
theorem c9_counterexample : usesDirectPath 768 false = true ∧ ¬(768 < 768) := by
  decide

/-- C9 (amended): the dispatcher selects the direct lane-reduction path
exactly when `num_indices ≤ 768` (at most the threshold) and frequency
scaling is disabled; in every other case it selects the sort-grouped
path; in both cases it returns the accumulated gradient-weight table. -/
theorem c9_dispatch :
    (∀ n scale, usesDirectPath n scale = true ↔ (n ≤ 768 ∧ scale = false)) ∧
    (∀ (l : List Int) (grad : Nat → Nat → ℚ) (stride : Nat) (pad : Int)
        (scaleB : Bool) (junkf : Nat → Int),
      accumulate_gradient l grad stride pad scaleB junkf =
        if usesDirectPath l.length scaleB then
          featureKernel (fun i => l.getD i 0) junkf grad l.length stride pad
        else
          (sortedKernel (sortedKeys l) (origPos l) grad
            (if scaleB then some (countsList l) else none) stride pad).1) := by
  refine ⟨fun n scale => ?_, fun l grad stride pad scaleB junkf => rfl⟩
  cases scale <;> simp [usesDirectPath]

/-! ## C7: boundary checks of the two entry points -/

/-- C7 (counterexample): the claim says the index-list element-type check
is enforced at the boundary of both entry points; `embedding_renorm_cuda_`
performs no scalar-type check, so an index tensor of Float element type
passes its checks and the operation proceeds. -/
theorem c7_counterexample :
    (TensorMeta.mk ScalarType.Float true 0 1).dtype ≠ ScalarType.Long ∧
    embedding_renorm_cuda_ (TensorMeta.mk ScalarType.Float true 0 2)
        (TensorMeta.mk ScalarType.Float true 0 1) (fun _ _ => 0) [] 1 2 1 =
      Except.ok (renormalize_rows (fun _ _ => 0) [] 1 2 1) :=
  ⟨by decide, rfl⟩

/-- C7 (amended): each entry point detects the violations of its own
check list synchronously, before any launch, and aborts with an error and
no mutation: `embedding_backward_cuda` checks the index element type
(Long), index contiguity and shared device residency;
`embedding_renorm_cuda_` checks contiguity of both tensors, that the
weight table has rank exactly 2, and shared device residency — but it
does not check the index element type, and neither entry point checks
every item of the claimed taxonomy. -/
theorem c7_checks (gm im sm im2 : TensorMeta) (l : List Int)
    (grad : Nat → Nat → ℚ) (stride : Nat) (pad : Int) (sc : Bool)
    (junkf : Nat → Int) (w : Int → Nat → ℝ) (idxs : List Int) (mn : ℝ)
    (p dim : Nat) :
    (im.dtype ≠ ScalarType.Long →
      embedding_backward_cuda gm im l grad stride pad sc junkf =
        Except.error "embedding_backward: argument check failed") ∧
    (im.contiguous = false →
      embedding_backward_cuda gm im l grad stride pad sc junkf =
        Except.error "embedding_backward: argument check failed") ∧
    (gm.device ≠ im.device →
      embedding_backward_cuda gm im l grad stride pad sc junkf =
        Except.error "embedding_backward: argument check failed") ∧
    (sm.contiguous = false →
      embedding_renorm_cuda_ sm im2 w idxs mn p dim =
        Except.error "embedding_renorm: argument check failed") ∧
    (im2.contiguous = false →
      embedding_renorm_cuda_ sm im2 w idxs mn p dim =
        Except.error "embedding_renorm: argument check failed") ∧
    (sm.dim ≠ 2 →
      embedding_renorm_cuda_ sm im2 w idxs mn p dim =
        Except.error "embedding_renorm: argument check failed") ∧
    (sm.device ≠ im2.device →
      embedding_renorm_cuda_ sm im2 w idxs mn p dim =
        Except.error "embedding_renorm: argument check failed") := by
  refine ⟨fun h => ?_, fun h => ?_, fun h => ?_, fun h => ?_, fun h => ?_,
    fun h => ?_, fun h => ?_⟩ <;>
    simp [embedding_backward_cuda, embedding_renorm_cuda_,
      embedding_backward_checks, embedding_renorm_checks, h]

/-- C7 (witness): a Float-typed index tensor aborts the backward entry
point with an error before any computation. -/
theorem c7_checks_witness :
    embedding_backward_cuda (TensorMeta.mk ScalarType.Float true 0 2)
        (TensorMeta.mk ScalarType.Float true 0 1) [] (fun _ _ => 0) 1 0 false
        (fun _ => 0) =
      Except.error "embedding_backward: argument check failed" :=
  (c7_checks (TensorMeta.mk ScalarType.Float true 0 2)
    (TensorMeta.mk ScalarType.Float true 0 1)
    (TensorMeta.mk ScalarType.Float true 0 2)
    (TensorMeta.mk ScalarType.Float true 0 1) [] (fun _ _ => 0) 1 0 false
    (fun _ => 0) (fun _ _ => 0) [] 1 2 1).1 (by decide)

/-! ## C10: shared-buffer accesses of the direct kernel stay in bounds -/

/-- C10: under the dispatcher precondition `num_indices ≤ 768`, every
offset at which the inner chunk loop of the direct kernel reads the
shared index buffer is below 1024, so no access leaves the 1024-slot
buffer and the out-of-window branch of `windowRead` is unreachable even
though the chunk loop bound is `num_indices` rather than the end of the
loaded window. -/
theorem c10_access_bounds (n : Nat) (hn : n ≤ 768) :
    ∀ off, reachableFeatureAccess n off → off < 1024 := by
  intro off h
  obtain ⟨b, j, t, hb, hbn, hcj, ht, rfl⟩ := h
  omega

/-- C10 (witness): a concrete reachable access at `n = 500`. -/
theorem c10_access_bounds_witness : (9 : Nat) < 1024 :=
  c10_access_bounds 500 (by decide) 9 ⟨0, 0, 9, by decide⟩

/-! ## Scan-by-key lemmas for the frequency counts -/

theorem fwdGo_length (pk : Int) (pv : Nat) (l : List Int) :
    (fwdGo pk pv l).length = l.length := by
  induction l generalizing pk pv with
  | nil => rfl
  | cons k ks ih => simp [fwdGo, ih]

theorem fwdScan_length (l : List Int) : (fwdScan l).length = l.length := by
  cases l with
  | nil => rfl
  | cons k ks => simp [fwdScan, fwdGo_length]

theorem range_map_shift (a i : Nat) :
    (List.range (i + 1)).map (fun t => a + t + 1) =
      (a + 1) :: (List.range i).map (fun t => (a + 1) + t + 1) := by
  rw [List.range_succ_eq_map, List.map_cons, List.map_map]
  have hfun : ((fun t => a + t + 1) ∘ Nat.succ) = (fun t => (a + 1) + t + 1) := by
    funext t
    simp only [Function.comp]
    omega
  simp [hfun]

theorem fwdGo_replicate (k : Int) (i : Nat) :
    ∀ (j : Nat) (rest : List Int), (∀ r, rest.head? = some r → r ≠ k) →
      fwdGo k j (List.replicate i k ++ rest) =
        (List.range i).map (fun t => j + t + 1) ++ fwdScan rest := by
  induction i with
  | zero =>
    intro j rest h
    cases rest with
    | nil => rfl
    | cons r rs =>
      have hrk : r ≠ k := h r rfl
      simp [fwdGo, fwdScan, hrk]
  | succ i ih =>
    intro j rest h
    rw [List.replicate_succ, List.cons_append, range_map_shift j i]
    have h1 : fwdGo k j (k :: (List.replicate i k ++ rest)) =
        (if k = k then j + 1 else 1) ::
          fwdGo k (if k = k then j + 1 else 1) (List.replicate i k ++ rest) := rfl
    rw [h1, if_pos rfl, ih (j + 1) rest h]
    simp

theorem fwdScan_replicate (k : Int) (i : Nat) (rest : List Int)
    (h : ∀ r, rest.head? = some r → r ≠ k) :
    fwdScan (List.replicate (i + 1) k ++ rest) =
      (List.range (i + 1)).map (fun t => 0 + t + 1) ++ fwdScan rest := by
  rw [List.replicate_succ, List.cons_append, range_map_shift 0 i]
  have h1 : fwdScan (k :: (List.replicate i k ++ rest)) =
      1 :: fwdGo k 1 (List.replicate i k ++ rest) := rfl
  rw [h1, fwdGo_replicate k i 1 rest h]
  simp

theorem revScan_replicate (k : Int) (i : Nat) :
    ∀ (j : Nat) (rest : List Int) (vrest : List Nat),
      vrest.length = rest.length → (∀ r, rest.head? = some r → r ≠ k) →
      revScan (List.replicate i k ++ rest)
          ((List.range i).map (fun t => j + t + 1) ++ vrest) =
        List.replicate i (j + i) ++ revScan rest vrest := by
  induction i with
  | zero =>
    intro j rest vrest hlen h
    simp
  | succ i ih =>
    intro j rest vrest hlen h
    rw [List.replicate_succ, List.cons_append, range_map_shift j i, List.cons_append]
    cases i with
    | zero =>
      simp only [List.replicate, List.nil_append, List.range_zero, List.map_nil]
      cases rest with
      | nil =>
        cases vrest with
        | nil => simp [revScan]
        | cons v vs => simp at hlen
      | cons r rs =>
        cases vrest with
        | nil => simp at hlen
        | cons v vs =>
          have hrk : r ≠ k := h r rfl
          simp only [revScan]
          rw [if_neg (fun hh => hrk hh.symm)]
          simp
    | succ i2 =>
      have htail := ih (j + 1) rest vrest hlen h
      rw [List.replicate_succ, List.cons_append, range_map_shift (j + 1) i2,
        List.cons_append] at htail ⊢
      simp only [revScan, if_pos rfl]
      rw [htail]
      have harith : j + 1 + (i2 + 1) = j + (i2 + 1 + 1) := by omega
      rw [List.replicate_succ, harith]
      simp only [List.cons_append, List.headD_cons]
      have hmax : max (j + 1) (j + (i2 + 1 + 1)) = j + (i2 + 1 + 1) :=
        max_eq_right (by omega)
      rw [hmax, List.replicate_succ, List.replicate_succ, List.cons_append,
        List.cons_append]
      simp

theorem sorted_run_decomp :
    ∀ (t : List Int) (k : Int), List.Sorted (· ≤ ·) (k :: t) →
      ∃ i rest, t = List.replicate i k ++ rest ∧ (∀ x ∈ rest, k < x) ∧
        List.Sorted (· ≤ ·) rest := by
  intro t
  induction t with
  | nil =>
    intro k hs
    exact ⟨0, [], rfl, ⟨by simp, List.sorted_nil⟩⟩
  | cons b t2 ih =>
    intro k hs
    rw [List.sorted_cons] at hs
    obtain ⟨hle, hs2⟩ := hs
    by_cases hkb : b = k
    · subst hkb
      obtain ⟨i, rest, ht2, hlt, hsr⟩ := ih b hs2
      refine ⟨i + 1, rest, ?_, hlt, hsr⟩
      rw [List.replicate_succ, List.cons_append, ht2]
    · refine ⟨0, b :: t2, by simp, ?_, hs2⟩
      intro x hx
      have hkltb : k < b :=
        lt_of_le_of_ne (hle b (by simp)) (fun hh => hkb hh.symm)
      rcases List.mem_cons.mp hx with rfl | hx2
      · exact hkltb
      · rw [List.sorted_cons] at hs2
        exact lt_of_lt_of_le hkltb (hs2.1 x hx2)

theorem countsScan_bounded :
    ∀ (N : Nat) (l : List Int), l.length ≤ N → List.Sorted (· ≤ ·) l →
      revScan l (fwdScan l) = l.map (fun k => l.count k) := by
  intro N
  induction N with
  | zero =>
    intro l hl _
    have : l = [] := List.length_eq_zero.mp (Nat.le_zero.mp hl)
    subst this
    rfl
  | succ N ih =>
    intro l hl hs
    cases l with
    | nil => rfl
    | cons k t =>
      obtain ⟨i, rest, ht, hlt, hsr⟩ := sorted_run_decomp t k hs
      subst ht
      have hhead : ∀ r, rest.head? = some r → r ≠ k := by
        intro r hr
        have hmem : r ∈ rest := by
          cases rest with
          | nil => cases hr
          | cons a rs =>
            simp only [List.head?_cons, Option.some_inj] at hr
            subst hr
            simp
        exact ne_of_gt (hlt r hmem)
      have hknotmem : k ∉ rest := by
        intro hmem
        exact lt_irrefl k (hlt k hmem)
      have hcons : (k :: (List.replicate i k ++ rest)) =
          List.replicate (i + 1) k ++ rest := by
        rw [List.replicate_succ, List.cons_append]
      rw [hcons]
      rw [fwdScan_replicate k i rest hhead]
      rw [revScan_replicate k (i + 1) 0 rest (fwdScan rest)
        (fwdScan_length rest) hhead]
      have hrl : rest.length ≤ N := by
        have := hl
        simp only [List.length_cons, List.length_append, List.length_replicate] at this
        omega
      rw [ih rest hrl hsr]
      rw [List.map_append, List.map_replicate]
      have hcount_k : (List.replicate (i + 1) k ++ rest).count k = i + 1 := by
        rw [List.count_append, List.count_replicate_self,
          List.count_eq_zero.mpr hknotmem]
      have hcount_rest : rest.map (fun x => (List.replicate (i + 1) k ++ rest).count x) =
          rest.map (fun x => rest.count x) := by
        apply List.map_congr_left
        intro x hx
        have hxk : k ≠ x := ne_of_lt (hlt x hx)
        simp [List.count_append, List.count_replicate, hxk]
      rw [hcount_k, hcount_rest, Nat.zero_add]

/-- The two scan-by-key passes over any sorted list give, at every
position, the total number of occurrences of that position's key. -/
theorem countsScan_eq (l : List Int) (hs : List.Sorted (· ≤ ·) l) :
    revScan l (fwdScan l) = l.map (fun k => l.count k) :=
  countsScan_bounded l.length l (le_refl _) hs

/-! ## Properties of the sort-by-key preprocessing -/

theorem sortedWithPos_perm (l : List Int) :
    (sortedWithPos l).Perm (l.zip (List.range l.length)) :=
  List.perm_insertionSort pairLe (l.zip (List.range l.length))

theorem sortedKeys_sorted (l : List Int) : List.Sorted (· ≤ ·) (sortedKeys l) := by
  have h := List.sorted_insertionSort pairLe (l.zip (List.range l.length))
  exact List.Pairwise.map Prod.fst (fun a b hab => hab) h

theorem sortedKeys_perm (l : List Int) : (sortedKeys l).Perm l := by
  have h1 : (sortedKeys l).Perm ((l.zip (List.range l.length)).map Prod.fst) :=
    (sortedWithPos_perm l).map Prod.fst
  have h2 : (l.zip (List.range l.length)).map Prod.fst = l :=
    List.map_fst_zip l (List.range l.length) (by simp)
  rw [h2] at h1
  exact h1

theorem count_sortedKeys (l : List Int) (k : Int) :
    (sortedKeys l).count k = l.count k :=
  (sortedKeys_perm l).count_eq k

theorem zip_fst_snd {α β : Type} :
    ∀ (sp : List (α × β)), (sp.map Prod.fst).zip (sp.map Prod.snd) = sp := by
  intro sp
  induction sp with
  | nil => rfl
  | cons p rest ih => simp [ih]

theorem zipWith_self_map {α γ : Type} (h : α → α → γ) :
    ∀ (sp : List α), List.zipWith h sp sp = sp.map (fun p => h p p) := by
  intro sp
  induction sp with
  | nil => rfl
  | cons p rest ih => simp [ih]

/-! ## C4: frequency counts and per-position scale -/

/-- C4: the counts produced by the forward `+1` scan-by-key and the
reverse `max` scan-by-key over the sorted index list hold, at every
sorted position, the total number of occurrences of that position's index
value in the full index list; consequently the work-list entries built
for the scaling kernel carry exactly the scale `1 / count(index[i])`. -/
theorem c4_counts_and_scale (l : List Int) :
    countsList l = (sortedKeys l).map (fun k => l.count k) ∧
    buildEntries (sortedKeys l) (origPos l) (some (countsList l)) =
      (sortedWithPos l).map (fun p => (p.1, p.2, ((l.count p.1 : ℚ))⁻¹)) := by
  have hc : countsList l = (sortedKeys l).map (fun k => l.count k) := by
    rw [countsList, countsScan_eq (sortedKeys l) (sortedKeys_sorted l)]
    apply List.map_congr_left
    intro k _
    rw [count_sortedKeys]
  refine ⟨hc, ?_⟩
  simp only [buildEntries, hc]
  rw [sortedKeys, origPos, zip_fst_snd, List.map_map, List.zipWith_map_right,
    zipWith_self_map]
  simp [Function.comp]

/-! ## Characterization of the sort-grouped kernel -/

theorem contribSum_takeWhile_zero (grad : Nat → Nat → ℚ) (r v : Int) (f : Nat)
    (hvr : v ≠ r) (L : List (Int × Nat × ℚ)) :
    (((L.takeWhile (fun e => decide (e.1 = v))).map
      (fun e => if r = e.1 then e.2.2 * grad e.2.1 f else 0)).sum : ℚ) = 0 := by
  apply List.sum_eq_zero
  intro x hx
  obtain ⟨e, he, rfl⟩ := List.mem_map.mp hx
  have hev : e.1 = v := by
    have h2 := List.mem_takeWhile_imp (p := fun e : Int × Nat × ℚ => decide (e.1 = v)) he
    simpa using h2
  rw [if_neg]
  intro hre
  exact hvr (by rw [← hev, ← hre])

theorem countP_takeWhile_zero (r v : Int) (hvr : v ≠ r)
    (L : List (Int × Nat × ℚ)) :
    (L.takeWhile (fun e => decide (e.1 = v))).countP
      (fun e => decide (r = e.1)) = 0 := by
  rw [List.countP_eq_zero]
  intro e he
  have hev : e.1 = v := by
    have h2 := List.mem_takeWhile_imp (p := fun e : Int × Nat × ℚ => decide (e.1 = v)) he
    simpa using h2
  simp only [decide_eq_true_eq]
  intro hre
  exact hvr (by rw [← hev, ← hre])

theorem contribSum_split {α : Type} (p : α → Bool) (g : α → ℚ) (L : List α) :
    ((L.takeWhile p).map g).sum + ((L.dropWhile p).map g).sum = (L.map g).sum := by
  conv_rhs => rw [← List.takeWhile_append_dropWhile (p := p) (l := L)]
  rw [List.map_append, List.sum_append]

theorem countP_split {α : Type} (p q : α → Bool) (L : List α) :
    (L.takeWhile p).countP q + (L.dropWhile p).countP q = L.countP q := by
  conv_rhs => rw [← List.takeWhile_append_dropWhile (p := p) (l := L)]
  rw [List.countP_append]

theorem walkRun_val (grad : Nat → Nat → ℚ) (stride : Nat) (v : Int) (r : Int)
    (f : Nat) :
    ∀ (L : List (Int × Nat × ℚ)) (st : (Int → Nat → ℚ) × (Int → Nat)),
      (walkRun grad stride v L st).1 r f =
        st.1 r f + (if f < stride then
          ((L.takeWhile (fun e => decide (e.1 = v))).map
            (fun e => if r = e.1 then e.2.2 * grad e.2.1 f else 0)).sum
        else 0) := by
  intro L
  induction L with
  | nil => intro st; simp [walkRun]
  | cons e rest ih =>
    intro st
    by_cases hev : e.1 = v
    · rw [walkRun, if_pos hev, ih (onePos grad stride e st)]
      rw [List.takeWhile_cons, if_pos (decide_eq_true hev)]
      rw [List.map_cons, List.sum_cons]
      simp only [onePos]
      by_cases hf : f < stride
      · by_cases hre : r = e.1
        · rw [if_pos ⟨hre, hf⟩, if_pos hf, if_pos hf, if_pos hre]
          ring
        · rw [if_neg (fun hh => hre hh.1), if_pos hf, if_pos hf, if_neg hre]
          ring
      · simp [hf]
    · rw [walkRun, if_neg hev]
      have htw : (e :: rest).takeWhile (fun e => decide (e.1 = v)) = [] := by
        simp [List.takeWhile_cons, hev]
      rw [htw]
      simp

theorem walkRun_writes (grad : Nat → Nat → ℚ) (stride : Nat) (v : Int)
    (r : Int) :
    ∀ (L : List (Int × Nat × ℚ)) (st : (Int → Nat → ℚ) × (Int → Nat)),
      (walkRun grad stride v L st).2 r =
        st.2 r + (if 0 < stride then
          (L.takeWhile (fun e => decide (e.1 = v))).countP
            (fun e => decide (r = e.1))
        else 0) := by
  intro L
  induction L with
  | nil => intro st; simp [walkRun]
  | cons e rest ih =>
    intro st
    by_cases hev : e.1 = v
    · rw [walkRun, if_pos hev, ih (onePos grad stride e st)]
      rw [List.takeWhile_cons, if_pos (decide_eq_true hev)]
      rw [List.countP_cons]
      simp only [onePos]
      by_cases hst : 0 < stride
      · by_cases hre : r = e.1
        · rw [if_pos ⟨hre, hst⟩, if_pos hst, if_pos hst,
            if_pos (decide_eq_true hre)]
          ring
        · rw [if_neg (fun hh => hre hh.1), if_pos hst, if_pos hst,
            if_neg (by simp [hre])]
          ring
      · simp [hst]
    · rw [walkRun, if_neg hev]
      have htw : (e :: rest).takeWhile (fun e => decide (e.1 = v)) = [] := by
        simp [List.takeWhile_cons, hev]
      rw [htw]
      simp

theorem owner_sum (e : Int × Nat × ℚ) (rest : List (Int × Nat × ℚ))
    (g : Int × Nat × ℚ → ℚ) :
    (((e :: rest).takeWhile (fun e2 => decide (e2.1 = e.1))).map g).sum
      + ((rest.dropWhile (fun e2 => decide (e2.1 = e.1))).map g).sum
      = ((e :: rest).map g).sum := by
  have htw : (e :: rest).takeWhile (fun e2 => decide (e2.1 = e.1)) =
      e :: rest.takeWhile (fun e2 => decide (e2.1 = e.1)) := by
    simp [List.takeWhile_cons]
  rw [htw, List.map_cons, List.sum_cons, List.map_cons, List.sum_cons,
    add_assoc, contribSum_split]

theorem owner_count (e : Int × Nat × ℚ) (rest : List (Int × Nat × ℚ))
    (q : Int × Nat × ℚ → Bool) :
    ((e :: rest).takeWhile (fun e2 => decide (e2.1 = e.1))).countP q
      + (rest.dropWhile (fun e2 => decide (e2.1 = e.1))).countP q
      = ((e :: rest)).countP q := by
  have htw : (e :: rest).takeWhile (fun e2 => decide (e2.1 = e.1)) =
      e :: rest.takeWhile (fun e2 => decide (e2.1 = e.1)) := by
    simp [List.takeWhile_cons]
  rw [htw, List.countP_cons, List.countP_cons, add_right_comm, countP_split]

theorem pad_skip_sum (grad : Nat → Nat → ℚ) (r : Int) (f : Nat) (pad : Int)
    (hr : r ≠ pad) (e : Int × Nat × ℚ) (hpad : e.1 = pad)
    (rest : List (Int × Nat × ℚ)) :
    (((e :: rest)).map (fun e2 => if r = e2.1 then e2.2.2 * grad e2.2.1 f else 0)).sum
      = ((rest.dropWhile (fun e2 => decide (e2.1 = e.1))).map
          (fun e2 => if r = e2.1 then e2.2.2 * grad e2.2.1 f else 0)).sum := by
  rw [List.map_cons, List.sum_cons, if_neg (fun hh => hr (by rw [hh, hpad]))]
  rw [← contribSum_split (fun e2 => decide (e2.1 = e.1))
    (fun e2 => if r = e2.1 then e2.2.2 * grad e2.2.1 f else 0) rest]
  rw [contribSum_takeWhile_zero grad r e.1 f (fun hh => hr (by rw [← hh]; exact hpad))]
  ring

theorem pad_skip_count (r : Int) (pad : Int) (hr : r ≠ pad)
    (e : Int × Nat × ℚ) (hpad : e.1 = pad) (rest : List (Int × Nat × ℚ)) :
    ((e :: rest)).countP (fun e2 => decide (r = e2.1))
      = ((rest.dropWhile (fun e2 => decide (e2.1 = e.1)))).countP
          (fun e2 => decide (r = e2.1)) := by
  rw [List.countP_cons, if_neg (by simp; intro hh; exact hr (by rw [hh, hpad]))]
  rw [← countP_split (fun e2 => decide (e2.1 = e.1)) (fun e2 => decide (r = e2.1)) rest]
  rw [countP_takeWhile_zero r e.1 (fun hh => hr (by rw [← hh]; exact hpad))]
  omega

theorem effList_none (L : List (Int × Nat × ℚ)) : effList none L = L := rfl

theorem effList_some (p : Int) (L : List (Int × Nat × ℚ)) :
    effList (some p) L = L.dropWhile (fun e => decide (e.1 = p)) := rfl

theorem goS_val (grad : Nat → Nat → ℚ) (stride : Nat) (pad : Int) (r : Int)
    (f : Nat) (hr : r ≠ pad) :
    ∀ (L : List (Int × Nat × ℚ)) (prev : Option Int)
      (st : (Int → Nat → ℚ) × (Int → Nat)),
      (goS grad stride pad prev L st).1 r f =
        st.1 r f + (if f < stride then
          ((effList prev L).map
            (fun e : Int × Nat × ℚ => if r = e.1 then e.2.2 * grad e.2.1 f else 0)).sum
        else 0) := by
  intro L
  induction L with
  | nil =>
    intro prev st
    cases prev <;> simp [goS, effList]
  | cons e rest ih =>
    intro prev st
    rw [goS]
    cases prev with
    | none =>
      by_cases hpad : e.1 = pad
      · rw [if_neg (fun hc => hc.2 hpad), ih (some e.1) st]
        simp only [effList_none, effList_some]
        by_cases hf : f < stride
        · simp only [if_pos hf]
          rw [pad_skip_sum grad r f pad hr e hpad rest]
        · simp [hf]
      · rw [if_pos ⟨by simp, hpad⟩,
          ih (some e.1) (walkRun grad stride e.1 (e :: rest) st),
          walkRun_val]
        simp only [effList_none, effList_some]
        by_cases hf : f < stride
        · simp only [if_pos hf]
          rw [add_assoc, owner_sum]
        · simp [hf]
    | some p =>
      by_cases hpe : p = e.1
      · subst hpe
        rw [if_neg (by simp), ih (some e.1) st]
        simp only [effList_some]
        have hdw : (e :: rest).dropWhile (fun e2 => decide (e2.1 = e.1)) =
            rest.dropWhile (fun e2 => decide (e2.1 = e.1)) := by
          simp [List.dropWhile_cons]
        rw [hdw]
      · by_cases hpad : e.1 = pad
        · rw [if_neg (fun hc => hc.2 hpad), ih (some e.1) st]
          simp only [effList_some]
          have hdw : (e :: rest).dropWhile (fun e2 => decide (e2.1 = p)) =
              e :: rest := by
            simp [List.dropWhile_cons]
            intro hh
            exact absurd hh.symm hpe
          rw [hdw]
          by_cases hf : f < stride
          · simp only [if_pos hf]
            rw [pad_skip_sum grad r f pad hr e hpad rest]
          · simp [hf]
        · rw [if_pos ⟨by simpa using hpe, hpad⟩,
            ih (some e.1) (walkRun grad stride e.1 (e :: rest) st),
            walkRun_val]
          simp only [effList_some]
          have hdw : (e :: rest).dropWhile (fun e2 => decide (e2.1 = p)) =
              e :: rest := by
            simp [List.dropWhile_cons]
            intro hh
            exact absurd hh.symm hpe
          rw [hdw]
          by_cases hf : f < stride
          · simp only [if_pos hf]
            rw [add_assoc, owner_sum]
          · simp [hf]

theorem goS_writes (grad : Nat → Nat → ℚ) (stride : Nat) (pad : Int) (r : Int)
    (hr : r ≠ pad) :
    ∀ (L : List (Int × Nat × ℚ)) (prev : Option Int)
      (st : (Int → Nat → ℚ) × (Int → Nat)),
      (goS grad stride pad prev L st).2 r =
        st.2 r + (if 0 < stride then
          (effList prev L).countP (fun e : Int × Nat × ℚ => decide (r = e.1))
        else 0) := by
  intro L
  induction L with
  | nil =>
    intro prev st
    cases prev <;> simp [goS, effList]
  | cons e rest ih =>
    intro prev st
    rw [goS]
    cases prev with
    | none =>
      by_cases hpad : e.1 = pad
      · rw [if_neg (fun hc => hc.2 hpad), ih (some e.1) st]
        simp only [effList_none, effList_some]
        by_cases hst : 0 < stride
        · simp only [if_pos hst]
          rw [pad_skip_count r pad hr e hpad rest]
        · simp [hst]
      · rw [if_pos ⟨by simp, hpad⟩,
          ih (some e.1) (walkRun grad stride e.1 (e :: rest) st),
          walkRun_writes]
        simp only [effList_none, effList_some]
        by_cases hst : 0 < stride
        · simp only [if_pos hst]
          rw [add_assoc]
          have := owner_count e rest (fun e2 : Int × Nat × ℚ => decide (r = e2.1))
          omega
        · simp [hst]
    | some p =>
      by_cases hpe : p = e.1
      · subst hpe
        rw [if_neg (by simp), ih (some e.1) st]
        simp only [effList_some]
        have hdw : (e :: rest).dropWhile (fun e2 => decide (e2.1 = e.1)) =
            rest.dropWhile (fun e2 => decide (e2.1 = e.1)) := by
          simp [List.dropWhile_cons]
        rw [hdw]
      · by_cases hpad : e.1 = pad
        · rw [if_neg (fun hc => hc.2 hpad), ih (some e.1) st]
          simp only [effList_some]
          have hdw : (e :: rest).dropWhile (fun e2 => decide (e2.1 = p)) =
              e :: rest := by
            simp [List.dropWhile_cons]
            intro hh
            exact absurd hh.symm hpe
          rw [hdw]
          by_cases hst : 0 < stride
          · simp only [if_pos hst]
            rw [pad_skip_count r pad hr e hpad rest]
          · simp [hst]
        · rw [if_pos ⟨by simpa using hpe, hpad⟩,
            ih (some e.1) (walkRun grad stride e.1 (e :: rest) st),
            walkRun_writes]
          simp only [effList_some]
          have hdw : (e :: rest).dropWhile (fun e2 => decide (e2.1 = p)) =
              e :: rest := by
            simp [List.dropWhile_cons]
            intro hh
            exact absurd hh.symm hpe
          rw [hdw]
          by_cases hst : 0 < stride
          · simp only [if_pos hst]
            rw [add_assoc]
            have := owner_count e rest (fun e2 : Int × Nat × ℚ => decide (r = e2.1))
            omega
          · simp [hst]

theorem goS_pad_val (grad : Nat → Nat → ℚ) (stride : Nat) (pad : Int)
    (f : Nat) :
    ∀ (L : List (Int × Nat × ℚ)) (prev : Option Int)
      (st : (Int → Nat → ℚ) × (Int → Nat)),
      (goS grad stride pad prev L st).1 pad f = st.1 pad f := by
  intro L
  induction L with
  | nil => intro prev st; simp [goS]
  | cons e rest ih =>
    intro prev st
    rw [goS]
    by_cases hcond : prev ≠ some e.1 ∧ e.1 ≠ pad
    · rw [if_pos hcond, ih, walkRun_val,
        contribSum_takeWhile_zero grad pad e.1 f hcond.2]
      simp
    · rw [if_neg hcond, ih]

theorem goS_pad_writes (grad : Nat → Nat → ℚ) (stride : Nat) (pad : Int) :
    ∀ (L : List (Int × Nat × ℚ)) (prev : Option Int)
      (st : (Int → Nat → ℚ) × (Int → Nat)),
      (goS grad stride pad prev L st).2 pad = st.2 pad := by
  intro L
  induction L with
  | nil => intro prev st; simp [goS]
  | cons e rest ih =>
    intro prev st
    rw [goS]
    by_cases hcond : prev ≠ some e.1 ∧ e.1 ≠ pad
    · rw [if_pos hcond, ih, walkRun_writes,
        countP_takeWhile_zero pad e.1 hcond.2]
      simp
    · rw [if_neg hcond, ih]

theorem sortedKernel_val (input : List Int) (indices : List Nat)
    (grad : Nat → Nat → ℚ) (count : Option (List Nat)) (stride : Nat)
    (pad : Int) (r : Int) (f : Nat) (hr : r ≠ pad) :
    (sortedKernel input indices grad count stride pad).1 r f =
      if f < stride then
        ((buildEntries input indices count).map
          (fun e : Int × Nat × ℚ => if r = e.1 then e.2.2 * grad e.2.1 f else 0)).sum
      else 0 := by
  rw [sortedKernel, goS_val grad stride pad r f hr _ none _, effList_none]
  simp

theorem sortedKernel_writes (input : List Int) (indices : List Nat)
    (grad : Nat → Nat → ℚ) (count : Option (List Nat)) (stride : Nat)
    (pad : Int) (r : Int) (hr : r ≠ pad) :
    (sortedKernel input indices grad count stride pad).2 r =
      if 0 < stride then
        (buildEntries input indices count).countP
          (fun e : Int × Nat × ℚ => decide (r = e.1))
      else 0 := by
  rw [sortedKernel, goS_writes grad stride pad r hr _ none _, effList_none]
  simp

theorem sortedKernel_pad_val (input : List Int) (indices : List Nat)
    (grad : Nat → Nat → ℚ) (count : Option (List Nat)) (stride : Nat)
    (pad : Int) (f : Nat) :
    (sortedKernel input indices grad count stride pad).1 pad f = 0 := by
  rw [sortedKernel, goS_pad_val]

theorem zipWith_entry_fst :
    ∀ (A : List (Int × Nat)) (B : List Nat), A.length = B.length →
      (List.zipWith (fun (p : Int × Nat) (c : Nat) => (p.1, p.2, ((c : ℚ))⁻¹)) A B).map
        (fun e : Int × Nat × ℚ => e.1) = A.map Prod.fst := by
  intro A
  induction A with
  | nil => intro B h; simp
  | cons p A2 ih =>
    intro B h
    cases B with
    | nil => simp at h
    | cons c B2 =>
      simp only [List.zipWith_cons_cons, List.map_cons]
      rw [ih B2 (by simpa using h)]

theorem buildEntries_fst (input : List Int) (indices : List Nat)
    (count : Option (List Nat)) (hlen : indices.length = input.length)
    (hclen : ∀ cl, count = some cl → cl.length = input.length) :
    (buildEntries input indices count).map (fun e : Int × Nat × ℚ => e.1) = input := by
  cases count with
  | none =>
    simp only [buildEntries, List.map_map]
    have hcomp : ((fun e : Int × Nat × ℚ => e.1) ∘
        (fun p : Int × Nat => (p.1, p.2, (1 : ℚ)))) = Prod.fst := rfl
    rw [hcomp]
    exact List.map_fst_zip input indices (le_of_eq hlen.symm)
  | some cl =>
    simp only [buildEntries]
    rw [zipWith_entry_fst (input.zip indices) cl
      (by rw [List.length_zip, hlen, min_self]; exact (hclen cl rfl).symm)]
    exact List.map_fst_zip input indices (le_of_eq hlen.symm)

/-! ## C2: global writes of the sort-grouped kernel -/

/-- C2 (counterexample): on the sorted input `[5, 5]` — a single run of
length 2 — the owning group performs two global stores to row 5 of the
gradient-weight table at the in-range feature column, not one: the
accumulated tile is written back once per run member. -/
theorem c2_counterexample :
    (sortedKernel [5, 5] [0, 1] (fun _ _ => 1) none 1 (-1)).2 5 = 2 ∧
      (2 : Nat) ≠ 1 := by
  constructor
  · rfl
  · decide

/-- C2 (amended): in the sort-grouped kernel the owning group of each
duplicate run performs one global store of the destination row per run
member (the read-modify-write is inside the run walk), and non-owners
store nothing, so for every row `r` other than `padding_idx` the number
of global stores to `r` per feature tile equals the number of positions
holding `r` — the duplicate count — rather than one per distinct value. -/
theorem c2_writes_per_member (input : List Int) (indices : List Nat)
    (grad : Nat → Nat → ℚ) (count : Option (List Nat)) (stride : Nat)
    (pad : Int) (r : Int) (hr : r ≠ pad) (hst : 0 < stride)
    (hlen : indices.length = input.length)
    (hclen : ∀ cl, count = some cl → cl.length = input.length) :
    (sortedKernel input indices grad count stride pad).2 r = input.count r := by
  rw [sortedKernel_writes input indices grad count stride pad r hr, if_pos hst]
  have h2 : (buildEntries input indices count).countP
      (fun e : Int × Nat × ℚ => decide (r = e.1)) =
      ((buildEntries input indices count).map
        (fun e : Int × Nat × ℚ => e.1)).countP (fun v => decide (r = v)) :=
    (List.countP_map (fun v => decide (r = v)) (fun e : Int × Nat × ℚ => e.1)
      (buildEntries input indices count)).symm
  rw [h2, buildEntries_fst input indices count hlen hclen]
  rw [List.count]
  apply List.countP_congr
  intro v hv
  by_cases hrv : r = v
  · subst hrv; simp
  · have hvr : ¬(v = r) := fun hh => hrv hh.symm
    simp [hrv, hvr]

/-- C2 (witness): on the run `[7, 7, 7]` the write counter for row 7
equals the duplicate count 3. -/
theorem c2_writes_per_member_witness :
    (sortedKernel [7, 7, 7] [0, 1, 2] (fun _ _ => 1) none 1 0).2 7 =
      List.count 7 [7, 7, 7] :=
  c2_writes_per_member [7, 7, 7] [0, 1, 2] (fun _ _ => 1) none 1 0 7
    (by decide) (by decide) (by decide) (by intro cl hcl; cases hcl)

/-! ## Characterization of the direct lane-reduction kernel -/

theorem leader_partition (idxf junkf : Nat → Int) (n b c m : Nat)
    (hm : m ≤ 32) (pad r : Int) (hr : r ≠ pad) (g : Nat → ℚ) :
    (∑ ty ∈ Finset.range 32,
      (if isLeader idxf junkf n b c m pad ty ∧ dstAt idxf junkf n b c ty = r then
        ∑ tx ∈ Finset.range 32,
          (if tx < m ∧ dstAt idxf junkf n b c tx = dstAt idxf junkf n b c ty then
            g tx
          else 0)
      else 0))
    = ∑ tx ∈ Finset.range 32,
        (if tx < m ∧ dstAt idxf junkf n b c tx = r then g tx else 0) := by
  by_cases hex : ∃ tx, tx < m ∧ dstAt idxf junkf n b c tx = r
  · have ht0 := Nat.find_spec hex
    set t0 := Nat.find hex with hdeft0
    rw [Finset.sum_eq_single t0]
    · have hlead : isLeader idxf junkf n b c m pad t0 := by
        refine ⟨ht0.1, ?_, ?_⟩
        · rw [ht0.2]; exact hr
        · intro tx htx hcon
          exact Nat.find_min hex htx ⟨hcon.1, by rw [hcon.2, ht0.2]⟩
      rw [if_pos ⟨hlead, ht0.2⟩]
      apply Finset.sum_congr rfl
      intro tx _
      rw [ht0.2]
    · intro b2 hb2 hbne
      rw [if_neg]
      intro hcon
      obtain ⟨⟨hbm, hbpad, hbmin⟩, hbr⟩ := hcon
      have hle : t0 ≤ b2 := Nat.find_min' hex ⟨hbm, hbr⟩
      have hlt : t0 < b2 := lt_of_le_of_ne hle (fun hh => hbne hh.symm)
      exact hbmin t0 hlt ⟨ht0.1, by rw [ht0.2, hbr]⟩
    · intro hnot
      exact absurd (Finset.mem_range.mpr (lt_of_lt_of_le ht0.1 hm)) hnot
  · push_neg at hex
    trans (0 : ℚ)
    · exact Finset.sum_eq_zero fun ty _ => by
        rw [if_neg]
        intro hcon
        exact hex ty hcon.1.1 hcon.2
    · symm
      exact Finset.sum_eq_zero fun tx _ => by
        rw [if_neg]
        intro hcon
        exact hex tx hcon.1 hcon.2

theorem chunkStep_val (idxf junkf : Nat → Int) (grad : Nat → Nat → ℚ)
    (n s : Nat) (pad : Int) (c : Nat) (hc : c < n) (hn : n ≤ 1024)
    (gw : Int → Nat → ℚ) (r : Int) (f : Nat) :
    chunkStep idxf junkf grad n s pad 0 c gw r f =
      gw r f + (if f < s then
        ∑ i ∈ Finset.Ico c (min (c + 32) n),
          (if idxf i = r ∧ r ≠ pad then grad i f else 0)
      else 0) := by
  by_cases hf : f < s
  · simp only [chunkStep, if_pos hf]
    congr 1
    have hdst : ∀ t, t < min (n - c) 32 → dstAt idxf junkf n 0 c t = idxf (c + t) := by
      intro t ht
      rw [dstAt, windowRead, if_pos]
      · congr 1
        omega
      · constructor <;> omega
    by_cases hr : r = pad
    · subst hr
      trans (0 : ℚ)
      · exact Finset.sum_eq_zero fun ty _ => by
          rw [if_neg]
          intro hcon
          exact hcon.1.2.1 hcon.2
      · symm
        exact Finset.sum_eq_zero fun i _ => by
          rw [if_neg]
          intro hcon
          exact hcon.2 rfl
    · rw [leader_partition idxf junkf n 0 c (min (n - c) 32)
        (min_le_right _ _) pad r hr (fun tx => grad (c + tx) f)]
      rw [Finset.sum_Ico_eq_sum_range]
      have hmeq : min (c + 32) n - c = min (n - c) 32 := by omega
      rw [hmeq]
      rw [← Finset.sum_subset
        (Finset.range_subset.mpr (min_le_right (n - c) 32))
        (fun x _ hnx => by
          rw [if_neg]
          intro hcon
          exact hnx (Finset.mem_range.mpr hcon.1))]
      apply Finset.sum_congr rfl
      intro tx htx
      have htxm : tx < min (n - c) 32 := Finset.mem_range.mp htx
      rw [hdst tx htxm]
      by_cases hi : idxf (c + tx) = r
      · rw [if_pos ⟨htxm, hi⟩, if_pos ⟨hi, hr⟩]
      · rw [if_neg (fun hcon => hi hcon.2), if_neg (fun hcon => hi hcon.1)]
  · simp [chunkStep, hf]

theorem featureChunks_val (idxf junkf : Nat → Int) (grad : Nat → Nat → ℚ)
    (n s : Nat) (pad : Int) (hn : n ≤ 1024) :
    ∀ (K : Nat), (∀ j, j < K → 32 * j < n) →
      ∀ (gw : Int → Nat → ℚ) (r : Int) (f : Nat),
        (((List.range K).map (fun t => 0 + 32 * t)).foldl
          (fun gw c => chunkStep idxf junkf grad n s pad 0 c gw) gw) r f =
        gw r f + (if f < s then
          ∑ i ∈ Finset.range (min (32 * K) n),
            (if idxf i = r ∧ r ≠ pad then grad i f else 0)
        else 0) := by
  intro K
  induction K with
  | zero =>
    intro hK gw r f
    simp
  | succ K ih =>
    intro hK gw r f
    have h32K : 32 * K < n := hK K (Nat.lt_succ_self K)
    rw [List.range_succ, List.map_append, List.foldl_append]
    simp only [List.map_cons, List.map_nil, List.foldl_cons, List.foldl_nil]
    rw [chunkStep_val idxf junkf grad n s pad (0 + 32 * K) (by omega) hn]
    rw [ih (fun j hj => hK j (Nat.lt_succ_of_lt hj)) gw r f]
    by_cases hf : f < s
    · simp only [if_pos hf]
      rw [add_assoc]
      congr 1
      simp only [Nat.zero_add]
      have hminK : min (32 * K) n = 32 * K := min_eq_left (le_of_lt h32K)
      rw [hminK]
      have hmin2 : min (32 * K + 32) n = min (32 * (K + 1)) n := by
        have : 32 * K + 32 = 32 * (K + 1) := by ring
        rw [this]
      rw [hmin2, Finset.range_eq_Ico]
      exact Finset.sum_Ico_consecutive _ (Nat.zero_le _) (by omega)
    · simp [hf]

theorem featureKernel_val (idxf junkf : Nat → Int) (grad : Nat → Nat → ℚ)
    (n s : Nat) (pad : Int) (hn : n ≤ 768) (r : Int) (f : Nat) :
    featureKernel idxf junkf grad n s pad r f =
      if f < s then
        ∑ i ∈ Finset.range n, (if idxf i = r ∧ r ≠ pad then grad i f else 0)
      else 0 := by
  rw [featureKernel]
  rcases Nat.eq_zero_or_pos n with hn0 | hn0
  · subst hn0
    simp [batchList]
  · have hbatch : batchList n = [0] := by
      rw [batchList]
      have h1 : (n + 1023) / 1024 = 1 := by omega
      rw [h1]
      decide
    rw [hbatch]
    simp only [List.foldl_cons, List.foldl_nil]
    have hchl : chunkList n 0 = (List.range ((n + 31) / 32)).map
        (fun t => 0 + 32 * t) := by
      rw [chunkList, Nat.sub_zero]
    rw [hchl]
    rw [featureChunks_val idxf junkf grad n s pad (by omega) ((n + 31) / 32)
      (fun j hj => by omega) (fun _ _ => 0) r f]
    have hmin : min (32 * ((n + 31) / 32)) n = n := by omega
    rw [hmin]
    simp

/-! ## Assembling the two accumulator paths -/

theorem countsList_eq (l : List Int) :
    countsList l = (sortedKeys l).map (fun k => (l.count k)) := by
  rw [countsList, countsScan_eq (sortedKeys l) (sortedKeys_sorted l)]
  apply List.map_congr_left
  intro k _
  rw [count_sortedKeys]

theorem entries_scaled (l : List Int) :
    buildEntries (sortedKeys l) (origPos l) (some (countsList l)) =
      (sortedWithPos l).map (fun p => (p.1, p.2, ((l.count p.1 : ℚ))⁻¹)) := by
  simp only [buildEntries, countsList_eq]
  rw [sortedKeys, origPos, zip_fst_snd, List.map_map, List.zipWith_map_right,
    zipWith_self_map]
  simp [Function.comp]

theorem entries_plain (l : List Int) :
    buildEntries (sortedKeys l) (origPos l) none =
      (sortedWithPos l).map (fun p => (p.1, p.2, (1 : ℚ))) := by
  simp only [buildEntries]
  rw [sortedKeys, origPos, zip_fst_snd]

theorem zip_range_map_sum (H : Int × Nat → ℚ) :
    ∀ (l : List Int) (off : Nat),
      ((l.zip (List.range' off l.length)).map H).sum =
        ∑ t ∈ Finset.range l.length, H (l.getD t 0, off + t) := by
  intro l
  induction l with
  | nil => intro off; simp
  | cons a l2 ih =>
    intro off
    rw [List.length_cons, List.range'_succ, List.zip_cons_cons, List.map_cons,
      List.sum_cons]
    rw [ih (off + 1)]
    rw [Finset.sum_range_succ']
    have hterm : ∀ t, H (l2.getD t 0, off + 1 + t) =
        H ((a :: l2).getD (t + 1) 0, off + (t + 1)) := by
      intro t
      have h1 : (a :: l2).getD (t + 1) 0 = l2.getD t 0 := rfl
      have h2 : off + 1 + t = off + (t + 1) := by omega
      rw [h1, h2]
    rw [add_comm (H (a, off))]
    congr 1
    exact Finset.sum_congr rfl fun t _ => hterm t

theorem sortedPairs_sum (l : List Int) (H : Int × Nat → ℚ) :
    (((sortedWithPos l).map H).sum) =
      ∑ t ∈ Finset.range l.length, H (l.getD t 0, t) := by
  have hperm := (sortedWithPos_perm l).map H
  rw [hperm.sum_eq]
  rw [List.range_eq_range' l.length, zip_range_map_sum H l 0]
  apply Finset.sum_congr rfl
  intro t _
  rw [Nat.zero_add]

/-! ## C1: sum correctness of gradient accumulation on both paths -/

/-- C1: for every input, every row `r` other than `padding_idx` and every
in-range feature column, the gradient-weight table returned by the
gradient-accumulation entry computation equals the sum over all positions
`i` with `index[i] = r` of `gradient[i]` divided by `count(r)`, where
`count(r)` is the number of occurrences of `r` when frequency scaling is
on and 1 otherwise; the dispatcher exercises the direct lane-reduction
path when `num_indices ≤ 768` without scaling and the sort-grouped path in
every other case, and the equality holds on both (exact arithmetic). -/
theorem c1_sum_correct (l : List Int) (grad : Nat → Nat → ℚ) (stride : Nat)
    (pad : Int) (scaleB : Bool) (junkf : Nat → Int) (r : Int) (f : Nat)
    (hr : r ≠ pad) (hf : f < stride) :
    accumulate_gradient l grad stride pad scaleB junkf r f =
      (∑ j ∈ Finset.range l.length, (if l.getD j 0 = r then grad j f else 0)) /
        (if scaleB then ((l.count r : ℚ)) else 1) := by
  rw [accumulate_gradient]
  by_cases hdir : usesDirectPath l.length scaleB = true
  · rw [if_pos hdir]
    have hdir2 : l.length ≤ 768 ∧ scaleB = false := by
      simpa [usesDirectPath] using hdir
    rw [featureKernel_val (fun i => l.getD i 0) junkf grad l.length stride pad
      hdir2.1 r f, if_pos hf, hdir2.2]
    simp only [Bool.false_eq_true, if_false, div_one]
    apply Finset.sum_congr rfl
    intro i _
    by_cases hi : l.getD i 0 = r
    · rw [if_pos ⟨hi, hr⟩, if_pos hi]
    · rw [if_neg (fun hc => hi hc.1), if_neg hi]
  · rw [if_neg hdir]
    rw [sortedKernel_val _ _ grad _ stride pad r f hr, if_pos hf]
    cases scaleB with
    | false =>
      simp only [Bool.false_eq_true, if_false, div_one]
      rw [entries_plain l, List.map_map]
      have hfun : ((fun e : Int × Nat × ℚ => if r = e.1 then e.2.2 * grad e.2.1 f else 0) ∘
          (fun p : Int × Nat => (p.1, p.2, (1 : ℚ)))) =
          (fun p : Int × Nat => if r = p.1 then grad p.2 f else 0) := by
        funext p
        simp only [Function.comp]
        by_cases hp : r = p.1
        · rw [if_pos hp, if_pos hp, one_mul]
        · rw [if_neg hp, if_neg hp]
      rw [hfun, sortedPairs_sum l]
      apply Finset.sum_congr rfl
      intro t _
      by_cases hi : l.getD t 0 = r
      · rw [if_pos hi.symm, if_pos hi]
      · rw [if_neg (fun hh => hi hh.symm), if_neg hi]
    | true =>
      simp only [if_true]
      rw [entries_scaled l, List.map_map]
      have hfun : ((fun e : Int × Nat × ℚ => if r = e.1 then e.2.2 * grad e.2.1 f else 0) ∘
          (fun p : Int × Nat => (p.1, p.2, ((l.count p.1 : ℚ))⁻¹))) =
          (fun p : Int × Nat => if r = p.1 then ((l.count r : ℚ))⁻¹ * grad p.2 f else 0) := by
        funext p
        simp only [Function.comp]
        by_cases hp : r = p.1
        · rw [if_pos hp, if_pos hp, ← hp]
        · rw [if_neg hp, if_neg hp]
      rw [hfun, sortedPairs_sum l]
      have hmul : ∀ t, ((fun p : Int × Nat =>
          if r = p.1 then ((l.count r : ℚ))⁻¹ * grad p.2 f else 0) (l.getD t 0, t)) =
          ((l.count r : ℚ))⁻¹ * (if l.getD t 0 = r then grad t f else 0) := by
        intro t
        simp only []
        by_cases hi : l.getD t 0 = r
        · rw [if_pos hi.symm, if_pos hi]
        · rw [if_neg (fun hh => hi hh.symm), if_neg hi, mul_zero]
      rw [Finset.sum_congr rfl (fun t _ => hmul t)]
      rw [← Finset.mul_sum, div_eq_mul_inv, mul_comm]

/-- C1 (witness): Scenario A — indices `[0, 0, 2]`, gradient rows
`[1,1,1]`, `[1,1,1]`, `[2,2,2]`, `padding_idx = -1`, no scaling: row 0 at
column 0 accumulates 2. -/
theorem c1_sum_correct_witness :
    accumulate_gradient [0, 0, 2] (fun j _ => if j = 2 then 2 else 1) 3 (-1)
      false (fun _ => 0) 0 0 = 2 :=
  (c1_sum_correct [0, 0, 2] (fun j _ => if j = 2 then 2 else 1) 3 (-1) false
    (fun _ => 0) 0 0 (by decide) (by decide)).trans (by norm_num [Finset.sum_range_succ])

/-! ## C3: the padding row is always all-zero -/

/-- C3: for every input, row `padding_idx` of the gradient-weight table
returned by the gradient-accumulation computation is identically zero, no
matter how many times `padding_idx` occurs in the index list, on both the
direct and the sort-grouped path. -/
theorem c3_padding_row_zero (l : List Int) (grad : Nat → Nat → ℚ)
    (stride : Nat) (pad : Int) (scaleB : Bool) (junkf : Nat → Int) (f : Nat) :
    accumulate_gradient l grad stride pad scaleB junkf pad f = 0 := by
  rw [accumulate_gradient]
  by_cases hdir : usesDirectPath l.length scaleB = true
  · rw [if_pos hdir]
    have hdir2 : l.length ≤ 768 ∧ scaleB = false := by
      simpa [usesDirectPath] using hdir
    rw [featureKernel_val (fun i => l.getD i 0) junkf grad l.length stride pad
      hdir2.1 pad f]
    by_cases hf : f < stride
    · rw [if_pos hf]
      exact Finset.sum_eq_zero fun i _ => by
        rw [if_neg]
        intro hcon
        exact hcon.2 rfl
    · rw [if_neg hf]
  · rw [if_neg hdir]
    exact sortedKernel_pad_val _ _ grad _ stride pad f

/-! ## Renormalization lemmas -/

theorem epsR_pos : (0 : ℝ) < epsR := by norm_num [epsR]

theorem contrib_scale (p : Nat) (hp : 1 ≤ p) (c x : ℝ) (hc : 0 ≤ c) :
    contrib p (x * c) = contrib p x * c ^ p := by
  by_cases h1 : p = 1
  · subst h1
    rw [contrib, contrib, if_pos rfl, if_pos rfl, abs_mul, abs_of_nonneg hc,
      pow_one]
  · by_cases h2 : p = 2
    · subst h2
      rw [contrib, contrib, if_neg h1, if_neg h1, if_pos rfl, if_pos rfl]
      ring
    · rw [contrib, contrib, if_neg h1, if_neg h1, if_neg h2, if_neg h2,
        mul_pow]

theorem rowSumV_scale (p dim : Nat) (hp : 1 ≤ p) (w : Nat → ℝ) (c : ℝ)
    (hc : 0 ≤ c) :
    rowSumV p dim (fun i => if i < dim then w i * c else w i) =
      rowSumV p dim w * c ^ p := by
  rw [rowSumV, rowSumV, Finset.sum_mul]
  apply Finset.sum_congr rfl
  intro i hi
  rw [if_pos (Finset.mem_range.mp hi), contrib_scale p hp c (w i) hc]

theorem rpow_root_scale (p : Nat) (hp : 1 ≤ p) (v c : ℝ) (hv : 0 ≤ v)
    (hc : 0 ≤ c) :
    (v * c ^ p) ^ ((p : ℝ))⁻¹ = v ^ ((p : ℝ))⁻¹ * c := by
  rw [Real.mul_rpow hv (pow_nonneg hc p)]
  congr 1
  rw [← Real.rpow_natCast c p, ← Real.rpow_mul hc,
    mul_inv_cancel₀ (Nat.cast_ne_zero.mpr (by omega)), Real.rpow_one]

theorem rootOpt_scale (p : Nat) (hp : 1 ≤ p) (v nrm c : ℝ) (hc : 0 ≤ c)
    (h : rootOpt p v = some nrm) :
    rootOpt p (v * c ^ p) = some (nrm * c) := by
  by_cases h1 : p = 1
  · subst h1
    rw [rootOpt, if_pos rfl] at h ⊢
    rw [Option.some_inj] at h
    rw [pow_one, h]
  · rw [rootOpt, if_neg h1] at h ⊢
    by_cases hv : 0 ≤ v
    · rw [if_pos hv] at h
      rw [Option.some_inj] at h
      rw [if_pos (mul_nonneg hv (pow_nonneg hc p)), Option.some_inj,
        rpow_root_scale p hp v c hv hc, h]
    · rw [if_neg hv] at h
      cases h

theorem scaled_root_le (mn nrm : ℝ) (hmn : 0 ≤ mn) (hnrm : 0 ≤ nrm) :
    nrm * (mn / (nrm + epsR)) ≤ mn := by
  have hden : 0 < nrm + epsR := by
    have := epsR_pos
    linarith
  rw [mul_div_assoc', div_le_iff₀ hden]
  nlinarith [epsR_pos]

theorem renormRow_idem (p : Nat) (hp : 1 ≤ p) (mn : ℝ) (hmn : 0 ≤ mn)
    (dim : Nat) (w : Nat → ℝ) :
    renormRow p mn dim (renormRow p mn dim w) = renormRow p mn dim w := by
  cases hroot : rootOpt p (rowSumV p dim w) with
  | none =>
    have h1 : renormRow p mn dim w = w := by
      rw [renormRow, hroot, Option.elim_none]
    rw [h1, h1]
  | some nrm =>
    by_cases hlt : mn < nrm
    · have h1 : renormRow p mn dim w =
          fun i => if i < dim then w i * (mn / (nrm + epsR)) else w i := by
        rw [renormRow, hroot, Option.elim_some, if_pos hlt]
      have hnrm0 : 0 ≤ nrm := le_trans hmn (le_of_lt hlt)
      have hden : 0 < nrm + epsR := by
        have := epsR_pos
        linarith
      have hc0 : 0 ≤ mn / (nrm + epsR) := div_nonneg hmn (le_of_lt hden)
      have hv2 : rowSumV p dim (renormRow p mn dim w) =
          rowSumV p dim w * (mn / (nrm + epsR)) ^ p := by
        rw [h1]
        exact rowSumV_scale p dim hp w (mn / (nrm + epsR)) hc0
      have hroot2 : rootOpt p (rowSumV p dim (renormRow p mn dim w)) =
          some (nrm * (mn / (nrm + epsR))) := by
        rw [hv2]
        exact rootOpt_scale p hp (rowSumV p dim w) nrm (mn / (nrm + epsR)) hc0 hroot
      have hnot : ¬ mn < nrm * (mn / (nrm + epsR)) :=
        not_lt.mpr (scaled_root_le mn nrm hmn hnrm0)
      conv_lhs => rw [renormRow, hroot2, Option.elim_some]
      rw [if_neg hnot]
    · have h1 : renormRow p mn dim w = w := by
        rw [renormRow, hroot, Option.elim_some, if_neg hlt]
      rw [h1, h1]

theorem rootOpt_spec (p dim : Nat) (w : Nat → ℝ) (hp : p = 1 ∨ p = 2) :
    rootOpt p (rowSumV p dim w) = some (specPnorm p dim w) := by
  rcases hp with rfl | rfl
  · rw [rootOpt, if_pos rfl, Option.some_inj, specPnorm, rowSumV]
    rw [Nat.cast_one, inv_one, Real.rpow_one]
    apply Finset.sum_congr rfl
    intro i _
    rw [contrib, if_pos rfl, pow_one]
  · have hsum : rowSumV 2 dim w = ∑ i ∈ Finset.range dim, |w i| ^ (2 : Nat) := by
      rw [rowSumV]
      apply Finset.sum_congr rfl
      intro i _
      rw [contrib, if_neg (by norm_num), if_pos rfl, sq_abs, pow_two]
    have hnn : 0 ≤ rowSumV 2 dim w := by
      rw [hsum]
      apply Finset.sum_nonneg
      intro i _
      positivity
    rw [rootOpt, if_neg (by norm_num), if_pos hnn, Option.some_inj, specPnorm,
      hsum]

theorem specPnorm_nonneg (p dim : Nat) (w : Nat → ℝ) :
    0 ≤ specPnorm p dim w := by
  apply Real.rpow_nonneg
  apply Finset.sum_nonneg
  intro i _
  positivity

theorem specPnorm_scale (p dim : Nat) (hp : 1 ≤ p) (w : Nat → ℝ) (c : ℝ)
    (hc : 0 ≤ c) :
    specPnorm p dim (fun i => if i < dim then w i * c else w i) =
      specPnorm p dim w * c := by
  rw [specPnorm, specPnorm]
  have hsum : (∑ i ∈ Finset.range dim,
      |(fun i => if i < dim then w i * c else w i) i| ^ p) =
      (∑ i ∈ Finset.range dim, |w i| ^ p) * c ^ p := by
    rw [Finset.sum_mul]
    apply Finset.sum_congr rfl
    intro i hi
    simp only [if_pos (Finset.mem_range.mp hi)]
    rw [abs_mul, abs_of_nonneg hc, mul_pow]
  rw [hsum]
  exact rpow_root_scale p hp _ c
    (Finset.sum_nonneg fun i _ => by positivity) hc

theorem renormRow_norm_le (p : Nat) (hp : p = 1 ∨ p = 2) (mn : ℝ)
    (hmn : 0 ≤ mn) (dim : Nat) (w : Nat → ℝ) :
    specPnorm p dim (renormRow p mn dim w) ≤ mn := by
  have hp1 : 1 ≤ p := by rcases hp with rfl | rfl <;> norm_num
  rw [renormRow, rootOpt_spec p dim w hp, Option.elim_some]
  by_cases hlt : mn < specPnorm p dim w
  · rw [if_pos hlt]
    have hden : 0 < specPnorm p dim w + epsR := by
      have := epsR_pos
      have := specPnorm_nonneg p dim w
      linarith
    rw [specPnorm_scale p dim hp1 w _ (div_nonneg hmn (le_of_lt hden))]
    exact scaled_root_le mn (specPnorm p dim w) hmn (specPnorm_nonneg p dim w)
  · rw [if_neg hlt]
    exact not_lt.mp hlt

theorem renormRow_le_eq (p : Nat) (hp : p = 1 ∨ p = 2) (mn : ℝ) (dim : Nat)
    (w : Nat → ℝ) (hw : specPnorm p dim w ≤ mn) :
    renormRow p mn dim w = w := by
  rw [renormRow, rootOpt_spec p dim w hp, Option.elim_some,
    if_neg (not_lt.mpr hw)]

theorem renorm_fold_row (p : Nat) (mn : ℝ) (dim : Nat) :
    ∀ (L : List Int) (w : Int → Nat → ℝ) (r : Int),
      (L.foldl (fun acc r2 => fun r3 =>
        if r3 = r2 then renormRow p mn dim (acc r2) else acc r3) w) r =
      (fun x => renormRow p mn dim x)^[L.count r] (w r) := by
  intro L
  induction L with
  | nil =>
    intro w r
    simp
  | cons a L2 ih =>
    intro w r
    rw [List.foldl_cons, ih]
    by_cases hra : r = a
    · subst hra
      rw [List.count_cons_self, Function.iterate_succ_apply]
      congr 1
      simp
    · rw [List.count_cons_of_ne hra]
      congr 1
      simp [hra]

theorem renormalize_rows_row (w : Int → Nat → ℝ) (idxs : List Int) (mn : ℝ)
    (p dim : Nat) (r : Int) :
    renormalize_rows w idxs mn p dim r =
      (fun x => renormRow p mn dim x)^[(uniqueAdj idxs).count r] (w r) := by
  rw [renormalize_rows]
  exact renorm_fold_row p mn dim (uniqueAdj idxs) w r

theorem uaGo_subset : ∀ (l : List Int) (prev x : Int), x ∈ uaGo prev l → x ∈ l := by
  intro l
  induction l with
  | nil => intro prev x h; cases h
  | cons a rest ih =>
    intro prev x h
    rw [uaGo] at h
    by_cases hap : a = prev
    · rw [if_pos hap] at h
      exact List.mem_cons_of_mem a (ih prev x h)
    · rw [if_neg hap] at h
      rcases List.mem_cons.mp h with rfl | h2
      · exact List.mem_cons_self _ _
      · exact List.mem_cons_of_mem a (ih a x h2)

theorem uniqueAdj_subset (l : List Int) (x : Int) (h : x ∈ uniqueAdj l) :
    x ∈ l := by
  cases l with
  | nil => cases h
  | cons a rest =>
    rw [uniqueAdj] at h
    rcases List.mem_cons.mp h with rfl | h2
    · exact List.mem_cons_self _ _
    · exact List.mem_cons_of_mem a (uaGo_subset rest a x h2)

theorem mem_uaGo_or (x : Int) :
    ∀ (l : List Int) (prev : Int), x ∈ l → x ∈ uaGo prev l ∨ x = prev := by
  intro l
  induction l with
  | nil => intro prev h; cases h
  | cons a rest ih =>
    intro prev h
    rw [uaGo]
    by_cases hap : a = prev
    · rw [if_pos hap]
      rcases List.mem_cons.mp h with rfl | h2
      · right; exact hap
      · exact ih prev h2
    · rw [if_neg hap]
      rcases List.mem_cons.mp h with rfl | h2
      · left; exact List.mem_cons_self _ _
      · rcases ih a h2 with h3 | h3
        · left; exact List.mem_cons_of_mem a h3
        · left; rw [h3]; exact List.mem_cons_self _ _

theorem mem_uniqueAdj (l : List Int) (x : Int) (h : x ∈ l) :
    x ∈ uniqueAdj l := by
  cases l with
  | nil => cases h
  | cons a rest =>
    rw [uniqueAdj]
    rcases List.mem_cons.mp h with rfl | h2
    · exact List.mem_cons_self _ _
    · rcases mem_uaGo_or x rest a h2 with h3 | h3
      · exact List.mem_cons_of_mem a h3
      · rw [h3]; exact List.mem_cons_self _ _

theorem iterate_of_idem {α : Type} (g : α → α) (hg : ∀ x, g (g x) = g x) :
    ∀ (n : Nat) (x : α), 1 ≤ n → g^[n] x = g x := by
  intro n
  induction n with
  | zero => intro x h; omega
  | succ n ih =>
    intro x _
    rw [Function.iterate_succ_apply]
    rcases Nat.eq_zero_or_pos n with rfl | hn
    · simp
    · rw [ih (g x) hn, hg]

/-! ## C8: idempotence of row renormalization -/

/-- C8 (counterexample): with a negative `max_norm` the rescale condition
`norm > max_norm` holds again after the first pass (a norm is never
negative), so a second application rescales again: on the single row
`[1]` with `max_norm = -1` and `p = 1`, applying `renormalize_rows` twice
differs from applying it once, refuting the claim for every `max_norm`. -/
theorem c8_counterexample :
    renormalize_rows (renormalize_rows
      (fun r i => if r = 0 ∧ i = 0 then (1 : ℝ) else 0) [0] (-1) 1 1)
      [0] (-1) 1 1 ≠
    renormalize_rows (fun r i => if r = 0 ∧ i = 0 then (1 : ℝ) else 0)
      [0] (-1) 1 1 := by
  set w : Int → Nat → ℝ := fun r i => if r = 0 ∧ i = 0 then (1 : ℝ) else 0
    with hwdef
  intro hcontra
  have hstep : ∀ (acc : Int → Nat → ℝ),
      renormalize_rows acc [0] (-1) 1 1 0 = renormRow 1 (-1) 1 (acc 0) := by
    intro acc
    have hu : uniqueAdj [0] = [0] := rfl
    rw [renormalize_rows, hu]
    simp only [List.foldl_cons, List.foldl_nil]
    simp
  have hv1 : rowSumV 1 1 (w 0) = 1 := by
    rw [rowSumV, Finset.sum_range_one, contrib, if_pos rfl]
    norm_num [hwdef]
  have hroot1 : rootOpt 1 (rowSumV 1 1 (w 0)) = some 1 := by
    rw [hv1, rootOpt, if_pos rfl]
  have hrow1 : renormRow 1 (-1) 1 (w 0) =
      fun i => if i < 1 then w 0 i * ((-1) / (1 + epsR)) else w 0 i := by
    rw [renormRow, hroot1, Option.elim_some,
      if_pos (by norm_num : (-1 : ℝ) < 1)]
  set c1 : ℝ := (-1) / (1 + epsR) with hc1
  have hE : (0 : ℝ) < epsR := epsR_pos
  have hc1neg : c1 < 0 := by
    rw [hc1]
    apply div_neg_of_neg_of_pos
    · norm_num
    · linarith
  have hrow1at0 : renormRow 1 (-1) 1 (w 0) 0 = c1 := by
    rw [hrow1]
    norm_num [hwdef]
  have hv2 : rowSumV 1 1 (renormRow 1 (-1) 1 (w 0)) = -c1 := by
    rw [rowSumV, Finset.sum_range_one, contrib, if_pos rfl, hrow1at0,
      abs_of_neg hc1neg]
  have hroot2 : rootOpt 1 (rowSumV 1 1 (renormRow 1 (-1) 1 (w 0))) =
      some (-c1) := by
    rw [hv2, rootOpt, if_pos rfl]
  have hlt2 : (-1 : ℝ) < -c1 := by linarith
  have hrow2at0 : renormRow 1 (-1) 1 (renormRow 1 (-1) 1 (w 0)) 0 =
      c1 * ((-1) / (-c1 + epsR)) := by
    rw [renormRow, hroot2, Option.elim_some, if_pos hlt2]
    simp only [if_pos (by norm_num : (0 : Nat) < 1)]
    rw [hrow1at0]
  have heq := congrFun (congrFun hcontra 0) 0
  rw [hstep (renormalize_rows w [0] (-1) 1 1), hstep w, hrow1at0] at heq
  rw [hrow2at0] at heq
  have hc1ne : c1 ≠ 0 := ne_of_lt hc1neg
  have hfac : ((-1 : ℝ)) / (-c1 + epsR) = 1 :=
    mul_left_cancel₀ hc1ne (heq.trans (mul_one c1).symm)
  have hpos : (0 : ℝ) < -c1 + epsR := by linarith
  rw [div_eq_one_iff_eq (ne_of_gt hpos)] at hfac
  linarith

/-- C8 (amended): for a nonnegative `max_norm` and norm order `p ≥ 1`,
applying `renormalize_rows` twice with the same arguments equals applying
it once: every row either keeps a code-computed norm at most `max_norm`
after the first pass (so the second pass leaves it untouched) or is left
untouched by both passes. -/
theorem c8_idempotent (w : Int → Nat → ℝ) (idxs : List Int) (mn : ℝ)
    (p dim : Nat) (hmn : 0 ≤ mn) (hp : 1 ≤ p) :
    renormalize_rows (renormalize_rows w idxs mn p dim) idxs mn p dim =
      renormalize_rows w idxs mn p dim := by
  funext r
  rw [renormalize_rows_row (renormalize_rows w idxs mn p dim) idxs mn p dim r,
    renormalize_rows_row w idxs mn p dim r]
  set g : (Nat → ℝ) → (Nat → ℝ) := fun x => renormRow p mn dim x with hgdef
  have hidem : ∀ x, g (g x) = g x := fun x => renormRow_idem p hp mn hmn dim x
  set k := (uniqueAdj idxs).count r with hk
  rcases Nat.eq_zero_or_pos k with hk0 | hkpos
  · rw [hk0]
    simp
  · calc g^[k] (g^[k] (w r)) = g (g^[k] (w r)) := iterate_of_idem g hidem k _ hkpos
      _ = g (g (w r)) := by rw [iterate_of_idem g hidem k _ hkpos]
      _ = g (w r) := hidem (w r)
      _ = g^[k] (w r) := (iterate_of_idem g hidem k _ hkpos).symm

/-- C8 (witness): a concrete instance of the amended idempotence at
`max_norm = 1`, `p = 2`. -/
theorem c8_idempotent_witness :
    renormalize_rows (renormalize_rows (fun _ _ => (0 : ℝ)) [0] 1 2 1)
      [0] 1 2 1 =
    renormalize_rows (fun _ _ => (0 : ℝ)) [0] 1 2 1 :=
  c8_idempotent (fun _ _ => 0) [0] 1 2 1 (by norm_num) (by norm_num)

/-! ## C5: norm bound after renormalization -/

/-- C5 (counterexample): for `p = 3` the kernel accumulates
`std::pow(x, 3)` without an absolute value, so the row `[-1]` produces the
negative sum `-1`, the root is NaN, the comparison with `max_norm` fails
and the row is left untouched: with `max_norm = 1/2` the addressed row
keeps p-norm 1, far above the bound, refuting the claim for norm orders
outside {1, 2}. -/
theorem c5_counterexample :
    (0 : Int) ∈ ([0] : List Int) ∧
    specPnorm 3 1 (renormalize_rows
      (fun r i => if r = 0 ∧ i = 0 then (-1 : ℝ) else 0) [0] (1/2) 3 1 0) = 1 ∧
    ¬ specPnorm 3 1 (renormalize_rows
      (fun r i => if r = 0 ∧ i = 0 then (-1 : ℝ) else 0) [0] (1/2) 3 1 0) ≤ 1/2 := by
  set w : Int → Nat → ℝ := fun r i => if r = 0 ∧ i = 0 then (-1 : ℝ) else 0
    with hwdef
  have hu : uniqueAdj [0] = [0] := rfl
  have hv : rowSumV 3 1 (w 0) = -1 := by
    rw [rowSumV, Finset.sum_range_one, contrib]
    norm_num [hwdef]
  have hro : rootOpt 3 (rowSumV 3 1 (w 0)) = none := by
    rw [hv, rootOpt]
    norm_num
  have hrow : renormalize_rows w [0] (1/2) 3 1 0 = w 0 := by
    rw [renormalize_rows, hu]
    simp only [List.foldl_cons, List.foldl_nil]
    simp only [if_true]
    rw [renormRow, hro, Option.elim_none]
  have hnorm : specPnorm 3 1 (renormalize_rows w [0] (1/2) 3 1 0) = 1 := by
    rw [hrow, specPnorm, Finset.sum_range_one]
    norm_num [hwdef, Real.one_rpow]
  exact ⟨by simp, hnorm, by rw [hnorm]; norm_num⟩

/-- C5 (amended): for the special-cased norm orders `p ∈ {1, 2}` and a
nonnegative `max_norm`, after `renormalize_rows` every row addressed by
the index list has p-norm at most `max_norm` (with exact arithmetic no
tolerance is needed: the rescale factor `max_norm / (norm + 1e-7)` brings
the norm strictly under the bound); a row whose p-norm is already at most
`max_norm`, and every row not addressed by the index list, is left
untouched.  For other norm orders the missing absolute value in the
accumulation (see C6) breaks the bound, and a negative `max_norm` is
unsatisfiable since norms are nonnegative. -/
theorem c5_norm_bound (w : Int → Nat → ℝ) (idxs : List Int) (mn : ℝ)
    (p dim : Nat) (hp : p = 1 ∨ p = 2) (hmn : 0 ≤ mn) :
    (∀ r, r ∈ idxs →
      specPnorm p dim (renormalize_rows w idxs mn p dim r) ≤ mn) ∧
    (∀ r, specPnorm p dim (w r) ≤ mn →
      renormalize_rows w idxs mn p dim r = w r) ∧
    (∀ r, r ∉ idxs → renormalize_rows w idxs mn p dim r = w r) := by
  refine ⟨fun r hr => ?_, fun r hw => ?_, fun r hnr => ?_⟩
  · rw [renormalize_rows_row]
    have hk : 0 < (uniqueAdj idxs).count r :=
      List.count_pos_iff.mpr (mem_uniqueAdj idxs r hr)
    obtain ⟨k2, hk2⟩ : ∃ k2, (uniqueAdj idxs).count r = k2 + 1 :=
      ⟨(uniqueAdj idxs).count r - 1, by omega⟩
    rw [hk2, Function.iterate_succ_apply']
    exact renormRow_norm_le p hp mn hmn dim _
  · rw [renormalize_rows_row]
    generalize (uniqueAdj idxs).count r = k
    induction k with
    | zero => rfl
    | succ k2 ih =>
      rw [Function.iterate_succ_apply, renormRow_le_eq p hp mn dim (w r) hw]
      exact ih
  · rw [renormalize_rows_row]
    have hk : (uniqueAdj idxs).count r = 0 :=
      List.count_eq_zero.mpr (fun hmem => hnr (uniqueAdj_subset idxs r hmem))
    rw [hk]
    rfl

/-- C5 (witness): Scenario D — the row `[3, 4]` (2-norm 5) addressed with
`max_norm = 1` ends with 2-norm at most 1. -/
theorem c5_norm_bound_witness :
    specPnorm 2 2 (renormalize_rows
      (fun r i => if r = 0 then (if i = 0 then 3 else if i = 1 then 4 else 0) else 0)
      [0] 1 2 2 0) ≤ 1 :=
  (c5_norm_bound
    (fun r i => if r = 0 then (if i = 0 then 3 else if i = 1 then 4 else 0) else 0)
    [0] 1 2 2 (Or.inr rfl) (by norm_num)).1 0 (by simp)

/-! ## C6: per-element norm contribution for general p -/

/-- C6: for a norm order outside {1, 2} the kernel accumulates
`std::pow(x, p)` with no absolute value (Embedding.cu line 183), so at the
failing input `p = 3, x = -1` the code contributes `-1` while the p-norm
definition — and the specification — require `|x|^p = 1`; the code
contradicts the claim. -/
theorem c6_pow_no_abs :
    contrib 3 (-1 : ℝ) = -1 ∧ |(-1 : ℝ)| ^ (3 : Nat) = 1 ∧
      contrib 3 (-1 : ℝ) ≠ |(-1 : ℝ)| ^ (3 : Nat) := by
  norm_num [contrib]

end EmbCuda
